import Mathlib

/-!
# Verification of the `insa_manager` employee-detail form controller

This file gives a shallow embedding in Lean 4 of the browser-side form
controller found in `static/scripts/employee_detail.js` (two near-identical
variants exist in the repository), and proves or refutes the specified
properties of its behavior.

The embedding covers:

* the text normalization pipeline `normalizeCommaNewlines`
  (`value.replace(/\r\n/g,'\n')`, then `replace(/,\s*(?!\n)/g, ',\n').trim()`,
  then `replace(/\n{3,}/g,'\n\n')`) as recursive functions on `List Char`;
* the tab switcher (`activateTab`, the initial hidden-attribute sync, the
  `keydown` arrow-key handler) as functions on an explicit DOM-fragment state;
* the edit/save toggle, dirty flag, save-button handler and the
  `beforeunload` handler as functions on an explicit form state.

Strings are modeled as `List Char`; DOM nodes as structures carrying the
attributes the script reads and writes.
-/

namespace EmployeeDetail

/-! ## JavaScript whitespace

The character class `\s` of JavaScript regular expressions (which is also the
set of characters removed by `String.prototype.trim`): tab, line feed,
vertical tab, form feed, carriage return, space, NBSP, the Unicode space
separators, the line/paragraph separators, narrow NBSP, medium mathematical
space, ideographic space and the BOM. -/
def isJsWS (c : Char) : Bool :=
  c = '\t' || c = '\n' || c = '\u000b' || c = '\u000c' || c = '\r' ||
  c = ' ' || c = '\u00a0' || c = '\u1680' ||
  (('\u2000' : Char) ≤ c && c ≤ ('\u200a' : Char)) ||
  c = '\u2028' || c = '\u2029' || c = '\u202f' || c = '\u205f' ||
  c = '\u3000' || c = '\ufeff'

/-- `v.replace(/\r\n/g, '\n')`: scanning left to right, each occurrence of
carriage return followed by line feed is replaced by a single line feed, and
scanning resumes after the replaced occurrence. -/
def stripCRLF : List Char → List Char
  | [] => []
  | '\r' :: '\n' :: rest => '\n' :: stripCRLF rest
  | c :: rest => c :: stripCRLF rest

/-- Scanner for `v.replace(/,\\s*(?!\\n)/g, ',\\n')`.  At every comma the
greedy `\\s*` consumes the maximal run of whitespace following it (after a
maximal run the next character is not whitespace, so the negative lookahead
`(?!\\n)` always succeeds there); the match — the comma together with that
whitespace run — is replaced by `,\\n` and scanning resumes after it.  The
flag records whether the scanner is still inside the whitespace run that
followed a comma. -/
def commaAux : Bool → List Char → List Char
  | _, [] => []
  | inWs, c :: rest =>
      if inWs && isJsWS c then commaAux true rest
      else if c = ',' then ',' :: '\n' :: commaAux true rest
      else c :: commaAux false rest

/-- `v.replace(/,\\s*(?!\\n)/g, ',\\n')`. -/
def commaStep (l : List Char) : List Char :=
  commaAux false l

/-- Remove the maximal run of JS whitespace at the end of the list. -/
def trimRight : List Char → List Char
  | [] => []
  | c :: rest =>
      match trimRight rest with
      | [] => if isJsWS c then [] else [c]
      | t => c :: t

/-- `String.prototype.trim`: remove leading and trailing JS whitespace. -/
def trimJS (l : List Char) : List Char :=
  trimRight (l.dropWhile isJsWS)

/-- Scanner for `v.replace(/\\n\x7b3,\x7d/g, '\\n\\n')`: every maximal run of
three or more line feeds is replaced by exactly two, scanning resuming after
the run.  The flag records whether the scanner is skipping the remainder of a
matched run. -/
def collapseAux : Bool → List Char → List Char
  | _, [] => []
  | true, '\n' :: rest => collapseAux true rest
  | true, c :: rest => c :: collapseAux false rest
  | false, '\n' :: '\n' :: '\n' :: rest => '\n' :: '\n' :: collapseAux true rest
  | false, c :: rest => c :: collapseAux false rest

/-- `v.replace(/\\n\x7b3,\x7d/g, '\\n\\n')`. -/
def collapseNL (l : List Char) : List Char :=
  collapseAux false l

/-- The pure value-to-value function computed by `normalizeCommaNewlines`:
the text written back is obtained from the text read by converting CRLF to
LF, putting a single newline after each comma (consuming the whitespace that
followed it), trimming, and collapsing runs of three or more newlines to
two. -/
def normalize (l : List Char) : List Char :=
  collapseNL (trimJS (commaStep (stripCRLF l)))

/-- `normalizeCommaNewlines` as a function on `String`. -/
def normalizeStr (s : String) : String :=
  ⟨normalize s.data⟩

/-! ## Shape predicates on normalized text -/

/-- Every comma is immediately followed by exactly one newline: the next
character is a line feed and the character after that (if any) is not. -/
def commaAlwaysNL : List Char → Bool
  | [] => true
  | ',' :: '\n' :: '\n' :: _ => false
  | ',' :: '\n' :: rest => commaAlwaysNL rest
  | ',' :: _ => false
  | _ :: rest => commaAlwaysNL rest

/-- Every comma is immediately followed by exactly one newline, except that
a comma standing at the very end of the text is allowed. -/
def commaSingleNL : List Char → Bool
  | [] => true
  | [','] => true
  | ',' :: '\n' :: '\n' :: _ => false
  | ',' :: '\n' :: rest => commaSingleNL rest
  | ',' :: _ :: _ => false
  | _ :: rest => commaSingleNL rest

/-- Strong shape invariant of the comma pass: every comma is immediately
followed by a line feed, and that line feed by a non-whitespace character or
the end of the text. -/
def commaOK : List Char → Bool
  | [] => true
  | ',' :: '\n' :: [] => true
  | ',' :: '\n' :: c :: rest => !isJsWS c && commaOK (c :: rest)
  | ',' :: _ => false
  | _ :: rest => commaOK rest

/-- Like `commaOK` but additionally allowing a comma at the very end of the
text (trimming can expose one there). -/
def commaOKE : List Char → Bool
  | [] => true
  | [','] => true
  | ',' :: '\n' :: [] => true
  | ',' :: '\n' :: c :: rest => !isJsWS c && commaOKE (c :: rest)
  | ',' :: _ => false
  | _ :: rest => commaOKE rest

/-- No three consecutive line feeds occur anywhere in the text. -/
def noLongNL : List Char → Bool
  | '\n' :: '\n' :: '\n' :: _ => false
  | _ :: rest => noLongNL rest
  | [] => true

/-- The first character (if any) is not JS whitespace. -/
def headNotWS (l : List Char) : Bool :=
  match l.head? with
  | none => true
  | some c => !isJsWS c

/-- The last character (if any) is not JS whitespace. -/
def lastNotWS (l : List Char) : Bool :=
  match l.getLast? with
  | none => true
  | some c => !isJsWS c

/-- No leading and no trailing JS whitespace. -/
def noEdgeWS (l : List Char) : Bool :=
  headNotWS l && lastNotWS l

/-! ## Tab switcher (employee_detail.js lines 33-75) -/

/-- A tab control matched by the selector `.tab[role="tab"]`: it carries
`data-target` (the id of the section it reveals), the `active` class, and the
`aria-selected` attribute (a string `"true"`/`"false"` in the DOM, modeled as
a `Bool`). -/
structure Tab where
  target : String
  active : Bool
  ariaSelected : Bool
deriving DecidableEq

/-- A `.profile-section` element: its `id`, its `active` class, and its
`hidden` attribute. -/
structure ProfileSection where
  id : String
  active : Bool
  hidden : Bool
deriving DecidableEq

/-- The DOM fragment the tab switcher operates on: the node lists captured by
`document.querySelectorAll` for tabs and sections. -/
structure TabState where
  tabs : List Tab
  sections : List ProfileSection
deriving DecidableEq

/-- `activateTab` (employee_detail.js lines 38-55), invoked with the tab at
index `i` of the tab node list: every tab gets `active` and `aria-selected`
set to whether it is the clicked tab, and every section gets the `active`
class and the negated `hidden` attribute according to whether its id equals
the clicked tab's `data-target`.  (The `requestAnimationFrame` resize that
follows has no effect on this state.) -/
def activateTab (st : TabState) (i : Nat) : TabState :=
  match st.tabs[i]? with
  | none => st
  | some tab =>
    { tabs := st.tabs.mapIdx (fun j t =>
        { t with active := j == i, ariaSelected := j == i }),
      sections := st.sections.map (fun s =>
        { s with active := s.id == tab.target, hidden := !(s.id == tab.target) }) }

/-- `initialActive` (employee_detail.js line 73):
`document.querySelector('.profile-section.active') ||
document.getElementById('basic-info')` — the first section carrying the
`active` class, or failing that the section with id `basic-info`.  It is used
only as the target of the deferred initial resize. -/
def initialActive (st : TabState) : Option ProfileSection :=
  match st.sections.find? (fun s => s.active) with
  | some s => some s
  | none => st.sections.find? (fun s => s.id == "basic-info")

/-- The initial synchronization (employee_detail.js line 74):
`sections.forEach(sec => sec.hidden = !sec.classList.contains('active'))`.
Note that it only writes `hidden`; no section's `active` class is changed. -/
def initSync (st : TabState) : TabState :=
  { st with sections := st.sections.map (fun s => { s with hidden := !s.active }) }

/-- The tab `keydown` handler (employee_detail.js lines 59-69) fired on the
tab at index `i`: for `ArrowRight`/`ArrowLeft` it prevents the default, moves
focus to index `(idx + dir + length) % length` and activates that tab; any
other key is ignored.  Returns (new state, default-prevented, focused index).
JavaScript `%` on these nonnegative operands agrees with `Int.emod`. -/
def tabKeydown (st : TabState) (i : Nat) (key : String) : TabState × Bool × Option Nat :=
  if key == "ArrowRight" || key == "ArrowLeft" then
    let dir : Int := if key == "ArrowRight" then 1 else -1
    let n : Int := st.tabs.length
    let next : Nat := (((i : Int) + dir + n) % n).toNat
    (activateTab st next, true, some next)
  else (st, false, none)

/-- One tracked form field, an element of
`form.querySelectorAll('input:not([readonly]), select, textarea')`: its
value and its `disabled` flag. -/
structure Field where
  value : String
  disabled : Bool
deriving DecidableEq

/-- The form-level state: the tracked fields, the values of the
`textarea.auto-list` elements, the edit button label, the save button's
`style.display`, whether `#loading` has the `active` class, the `dirty`
closure variable, and a counter of form submissions requested so far. -/
structure FormState where
  fields : List Field
  listAreas : List String
  editLabel : String
  saveDisplay : String
  loadingActive : Bool
  dirty : Bool
  submitted : Nat
deriving DecidableEq

/-- The form `input` listener (employee_detail.js line 105):
`if (!dirty) dirty = true`. -/
def inputEvent (st : FormState) : FormState :=
  if st.dirty then st else { st with dirty := true }

/-- The edit button click handler (employee_detail.js lines 107-122):
`isDisabled` is read from the first tracked field (`true` when there is
none), every tracked field's `disabled` becomes its negation, and the labels,
save-button visibility and (on cancel) the dirty flag are updated. -/
def editClick (st : FormState) : FormState :=
  let isDisabled :=
    match st.fields.head? with
    | some f => f.disabled
    | none => true
  let fields2 := st.fields.map (fun f => { f with disabled := !isDisabled })
  if isDisabled then
    { st with fields := fields2, editLabel := "취소", saveDisplay := "inline-block" }
  else
    { st with fields := fields2, dirty := false,
              editLabel := "수정", saveDisplay := "none" }

/-- The save button click handler (employee_detail.js lines 124-131):
prevent default, re-normalize every list text area, add the `active` class to
`#loading`, then request exactly one submission
(`form.requestSubmit ? form.requestSubmit() : form.submit()`).  The `Bool`
is whether the default was prevented. -/
def saveClick (st : FormState) : FormState × Bool :=
  ({ st with listAreas := st.listAreas.map normalizeStr,
             loadingActive := true,
             submitted := st.submitted + 1 }, true)

/-- The `beforeunload` handler (employee_detail.js lines 134-139): whether
it calls `preventDefault` (arming the native confirmation prompt). -/
def beforeunload (st : FormState) : Bool := st.dirty

/-- Variant 2 (src/unnamed/part_000 lines 32-47): the tab click handler only
toggles the `active` class on tabs and sections; `aria-selected` and the
`hidden` attribute are left untouched, and there is no keydown handler. -/
def tabClickV2 (st : TabState) (i : Nat) : TabState :=
  match st.tabs[i]? with
  | none => st
  | some tab =>
    { tabs := st.tabs.mapIdx (fun j t => { t with active := j == i }),
      sections := st.sections.map (fun s => { s with active := s.id == tab.target }) }

/-- Variant 2 `normalizeCommaNewlines` (src/unnamed/part_000 lines 10-15);
the source text of the function is identical to variant 1's. -/
def normalizeV2 (l : List Char) : List Char :=
  collapseNL (trimJS (commaStep (stripCRLF l)))

/-- Variant 2 `normalizeCommaNewlines` on `String`. -/
def normalizeStrV2 (s : String) : String :=
  ⟨normalizeV2 s.data⟩

/-- Variant 2 edit button handler (src/unnamed/part_000 lines 84-99): same
as variant 1 except that no dirty flag exists, so nothing is reset on
cancel. -/
def editClickV2 (st : FormState) : FormState :=
  let isDisabled :=
    match st.fields.head? with
    | some f => f.disabled
    | none => true
  let fields2 := st.fields.map (fun f => { f with disabled := !isDisabled })
  if isDisabled then
    { st with fields := fields2, editLabel := "취소", saveDisplay := "inline-block" }
  else
    { st with fields := fields2, editLabel := "수정", saveDisplay := "none" }

/-- Variant 2 save handler (src/unnamed/part_000 lines 101-108): prevent
default, normalize, activate loading, then `setTimeout(() => form.submit(),
300)` — one submission per activation, after a fixed delay. -/
def saveClickV2 (st : FormState) : FormState × Bool :=
  ({ st with listAreas := st.listAreas.map normalizeStrV2,
             loadingActive := true,
             submitted := st.submitted + 1 }, true)

/-- A concrete initial DOM in which the markup marks no section active
(sections `basic-info` and `career`, neither carrying the `active` class). -/
def tabStateNoActive : TabState :=
  { tabs := [{ target := "basic-info", active := false, ariaSelected := false },
             { target := "career", active := false, ariaSelected := false }],
    sections := [{ id := "basic-info", active := false, hidden := false },
                 { id := "career", active := false, hidden := false }] }

/-- A concrete DOM with one tab targeting `career` while `basic-info` is the
currently active, visible section. -/
def tabStateOneActive : TabState :=
  { tabs := [{ target := "career", active := false, ariaSelected := false }],
    sections := [{ id := "basic-info", active := true, hidden := false },
                 { id := "career", active := false, hidden := true }] }

/-- A concrete form state in the Locked state (all tracked fields
disabled). -/
def lockedForm : FormState :=
  { fields := [{ value := "alice", disabled := true }, { value := "dev", disabled := true }],
    listAreas := ["a, b"], editLabel := "수정", saveDisplay := "none",
    loadingActive := false, dirty := false, submitted := 0 }

/-- A concrete form state in the Editing state with unsaved changes
(fields enabled, dirty flag set). -/
def editingForm : FormState :=
  { fields := [{ value := "alice", disabled := false }],
    listAreas := ["a, b"], editLabel := "취소", saveDisplay := "inline-block",
    loadingActive := false, dirty := true, submitted := 0 }

/-! ## Concrete evaluations of the normalization pipeline -/

example : normalizeStr ("a, b,\nc") = "a,\nb,\nc" := by decide
example : normalizeStr ("a\n\n\n\nb") = "a\n\nb" := by decide
example : normalizeStr ("a,") = "a," := by decide
example : normalizeStr ("a,\n\nb") = "a,\nb" := by decide
example : normalizeStr ("a\r\r\nb") = "a\r\nb" := by decide
example : normalizeStr (normalizeStr ("a\r\r\nb")) = "a\nb" := by decide
example : normalizeStr ("a, , b") = "a,\n,\nb" := by decide
example : normalizeStr (",,") = ",\n," := by decide
example : normalizeStr ("x,\n\n\n\ny") = "x,\ny" := by decide
example : normalizeStr ("  a,\tb  ") = "a,\nb" := by decide
example : normalizeStr ("a,\rb") = "a,\nb" := by decide


/-! ## Lemmas -/

theorem commaOK_cons_ne {c : Char} (hc : c ≠ ',') (xs : List Char) :
    commaOK (c :: xs) = commaOK xs := by
  simp [commaOK, hc]

theorem commaOK_comma_cons (d : Char) (xs : List Char) :
    commaOK (',' :: '\n' :: d :: xs) = (!isJsWS d && commaOK (d :: xs)) := by
  simp [commaOK]

theorem commaAux_true_head (l : List Char) :
    headNotWS (commaAux true l) = true := by
  induction l with
  | nil => rfl
  | cons c rest ih =>
    by_cases hw : isJsWS c
    · simpa [commaAux, hw] using ih
    · by_cases hc : c = ','
      · subst hc; simp [commaAux, hw, headNotWS, isJsWS]
      · simp [commaAux, hw, hc, headNotWS]


theorem commaOKE_cons_ne {c : Char} (hc : c ≠ ',') (xs : List Char) :
    commaOKE (c :: xs) = commaOKE xs := by
  simp [commaOKE, hc]

theorem commaSingleNL_cons_ne {c : Char} (hc : c ≠ ',') (xs : List Char) :
    commaSingleNL (c :: xs) = commaSingleNL xs := by
  simp [commaSingleNL, hc]

theorem comma_not_ws : isJsWS ',' = false := by decide

theorem nl_is_ws : isJsWS '\n' = true := by decide

theorem commaAux_commaOK (l : List Char) :
    ∀ inWs, commaOK (commaAux inWs l) = true := by
  induction l with
  | nil => intro inWs; rfl
  | cons c rest ih =>
    intro inWs
    by_cases hw : (inWs && isJsWS c) = true
    · simpa [commaAux, hw] using ih true
    · by_cases hc : c = ','
      · subst hc
        have hgoal : commaAux inWs (',' :: rest) = ',' :: '\n' :: commaAux true rest := by
          simp [commaAux, hw]
        rw [hgoal]
        cases h : commaAux true rest with
        | nil => rfl
        | cons d xs =>
          have hh := commaAux_true_head rest
          rw [h] at hh
          have hd : isJsWS d = false := by simpa [headNotWS] using hh
          have hrec := ih true
          rw [h] at hrec
          simp [commaOK, hd, hrec]
      · have hgoal : commaAux inWs (c :: rest) = c :: commaAux false rest := by
          simp [commaAux, hw, hc]
        rw [hgoal, commaOK_cons_ne hc]
        exact ih false

theorem dropWhile_ws_commaOK {l : List Char} (h : commaOK l = true) :
    commaOK (l.dropWhile isJsWS) = true := by
  induction l with
  | nil => simpa using h
  | cons c rest ih =>
    rw [List.dropWhile_cons]
    by_cases hw : isJsWS c
    · simp only [hw, if_true]
      apply ih
      have hc : c ≠ ',' := by rintro rfl; rw [comma_not_ws] at hw; exact Bool.false_ne_true hw
      rwa [commaOK_cons_ne hc] at h
    · simpa [hw] using h

theorem trimRight_cons_of_not_ws {c : Char} (hc : isJsWS c = false) (rest : List Char) :
    ∃ t, trimRight (c :: rest) = c :: t := by
  simp only [trimRight]
  cases h : trimRight rest with
  | nil => exact ⟨[], by simp [hc]⟩
  | cons d t => exact ⟨d :: t, rfl⟩


theorem lastNotWS_cons {c : Char} {xs : List Char} (h : xs ≠ []) :
    lastNotWS (c :: xs) = lastNotWS xs := by
  rcases xs with _ | ⟨d, t⟩
  · exact absurd rfl h
  · simp [lastNotWS, List.getLast?_cons_cons]

theorem trimRight_cons (c : Char) (rest : List Char) :
    trimRight (c :: rest) =
      match trimRight rest with
      | [] => if isJsWS c then [] else [c]
      | t => c :: t := rfl

theorem commaOKE_trimRight {l : List Char} (h : commaOK l = true) :
    commaOKE (trimRight l) = true := by
  induction l using commaOK.induct with
  | case1 => rfl
  | case2 => rfl
  | case3 c rest ih =>
    rw [commaOK_comma_cons] at h
    obtain ⟨hc, hrec⟩ := Bool.and_eq_true_iff.mp h
    have hcw : isJsWS c = false := by simpa using hc
    obtain ⟨t, ht⟩ := trimRight_cons_of_not_ws hcw rest
    have hA : trimRight ('\n' :: c :: rest) = '\n' :: c :: t := by
      rw [trimRight_cons, ht]
    have h2 : trimRight (',' :: '\n' :: c :: rest) = ',' :: '\n' :: c :: t := by
      rw [trimRight_cons, hA]
    rw [h2]
    have h3 := ih hrec
    rw [ht] at h3
    simp [commaOKE, hcw, h3]
  | case4 tail g1 g2 =>
    exfalso
    rcases tail with _ | ⟨d, t⟩
    · simp [commaOK] at h
    · by_cases hd : d = '\n'
      · subst hd
        rcases t with _ | ⟨e, t2⟩
        · exact g1 rfl
        · exact g2 e t2 rfl
      · simp [commaOK, hd] at h
  | case5 c rest g1 g2 g3 ih =>
    have hc : c ≠ ',' := fun hh => g3 hh
    rw [commaOK_cons_ne hc] at h
    have ih2 := ih h
    cases htr : trimRight rest with
    | nil =>
      by_cases hw : isJsWS c
      · have : trimRight (c :: rest) = [] := by simp [trimRight, htr, hw]
        rw [this]; rfl
      · have : trimRight (c :: rest) = [c] := by simp [trimRight, htr, hw]
        rw [this, commaOKE_cons_ne hc]; rfl
    | cons d t =>
      have : trimRight (c :: rest) = c :: d :: t := by simp [trimRight, htr]
      rw [this, commaOKE_cons_ne hc, ← htr]
      exact ih2

theorem commaOKE_trimJS {l : List Char} (h : commaOK l = true) :
    commaOKE (trimJS l) = true :=
  commaOKE_trimRight (dropWhile_ws_commaOK h)

theorem dropWhile_headNotWS (l : List Char) :
    headNotWS (l.dropWhile isJsWS) = true := by
  induction l with
  | nil => rfl
  | cons c rest ih =>
    rw [List.dropWhile_cons]
    by_cases hw : isJsWS c
    · simpa [hw] using ih
    · simp [hw, headNotWS]

theorem trimRight_lastNotWS (l : List Char) :
    lastNotWS (trimRight l) = true := by
  induction l with
  | nil => rfl
  | cons c rest ih =>
    cases htr : trimRight rest with
    | nil =>
      by_cases hw : isJsWS c
      · have : trimRight (c :: rest) = [] := by simp [trimRight, htr, hw]
        rw [this]; rfl
      · have : trimRight (c :: rest) = [c] := by simp [trimRight, htr, hw]
        rw [this]; simp [lastNotWS, hw]
    | cons d t =>
      have h2 : trimRight (c :: rest) = c :: d :: t := by simp [trimRight, htr]
      rw [h2, lastNotWS_cons (by simp), ← htr]
      exact ih

theorem trimRight_headNotWS {l : List Char} (h : headNotWS l = true) :
    headNotWS (trimRight l) = true := by
  rcases l with _ | ⟨c, rest⟩
  · rfl
  · have hcw : isJsWS c = false := by simpa [headNotWS] using h
    obtain ⟨t, ht⟩ := trimRight_cons_of_not_ws hcw rest
    rw [ht]
    simpa [headNotWS] using hcw

theorem noEdgeWS_trimJS (l : List Char) : noEdgeWS (trimJS l) = true := by
  have h1 := dropWhile_headNotWS l
  have h2 := trimRight_headNotWS h1
  have h3 := trimRight_lastNotWS (l.dropWhile isJsWS)
  simp [noEdgeWS, trimJS, h2, h3]


theorem getLast?_cons_ne {c : Char} {xs : List Char} (h : xs ≠ []) :
    (c :: xs).getLast? = xs.getLast? := by
  rcases xs with _ | ⟨d, t⟩
  · exact absurd rfl h
  · exact List.getLast?_cons_cons

theorem collapseAux_true_eq (l : List Char) :
    collapseAux true l = collapseAux false (l.dropWhile (fun c => c == '\n')) := by
  induction l with
  | nil => rfl
  | cons c rest ih =>
    by_cases hc : c = '\n'
    · subst hc
      rw [List.dropWhile_cons]
      simpa [collapseAux] using ih
    · rw [List.dropWhile_cons]
      simp [collapseAux, hc]

theorem collapseAux_false_head (l : List Char) :
    (collapseAux false l).head? = l.head? := by
  rcases l with _ | ⟨c, rest⟩
  · rfl
  · by_cases hc : c = '\n'
    · subst hc
      rcases rest with _ | ⟨d, rest2⟩
      · simp [collapseAux]
      · by_cases hd : d = '\n'
        · subst hd
          rcases rest2 with _ | ⟨e, rest3⟩
          · simp [collapseAux]
          · by_cases he : e = '\n'
            · subst he; simp [collapseAux]
            · simp [collapseAux, he]
        · simp [collapseAux, hd]
    · simp [collapseAux, hc]

theorem collapseAux_last (s : Bool) (l : List Char) :
    lastNotWS l = true → l ≠ [] →
      collapseAux s l ≠ [] ∧ (collapseAux s l).getLast? = l.getLast? := by
  induction s, l using collapseAux.induct with
  | case1 x => intro _ hne; exact absurd rfl hne
  | case2 rest ih =>
    intro hl _
    have hrest : rest ≠ [] := by
      rintro rfl
      exact absurd hl (by decide)
    rw [lastNotWS_cons hrest] at hl
    obtain ⟨h1, h2⟩ := ih hl hrest
    refine ⟨by simpa [collapseAux] using h1, ?_⟩
    rw [show collapseAux true ('\n' :: rest) = collapseAux true rest from by simp [collapseAux],
        h2, getLast?_cons_ne hrest]
  | case3 c rest hc ih =>
    intro hl _
    rcases rest with _ | ⟨d, rest2⟩
    · exact ⟨by simp [collapseAux], by simp [collapseAux]⟩
    · have hrest : (d :: rest2) ≠ [] := by simp
      rw [lastNotWS_cons hrest] at hl
      obtain ⟨h1, h2⟩ := ih hl hrest
      constructor
      · simp [collapseAux, hc]
      · rw [show collapseAux true (c :: d :: rest2) = c :: collapseAux false (d :: rest2) from
          by simp [collapseAux, hc], getLast?_cons_ne h1, h2, getLast?_cons_ne hrest]
  | case4 rest ih =>
    intro hl _
    have hrest : rest ≠ [] := by
      rintro rfl
      exact absurd hl (by decide)
    have hl2 : lastNotWS rest = true := by
      rw [lastNotWS_cons (by simp : ('\n' :: '\n' :: rest : List Char) ≠ []),
          lastNotWS_cons (by simp : ('\n' :: rest : List Char) ≠ []),
          lastNotWS_cons hrest] at hl
      exact hl
    obtain ⟨h1, h2⟩ := ih hl2 hrest
    constructor
    · simp [collapseAux]
    · rw [show collapseAux false ('\n' :: '\n' :: '\n' :: rest) =
            '\n' :: '\n' :: collapseAux true rest from by simp [collapseAux],
          getLast?_cons_ne (by simp), getLast?_cons_ne h1, h2,
          getLast?_cons_ne (by simp : ('\n' :: '\n' :: rest : List Char) ≠ []),
          getLast?_cons_ne (by simp : ('\n' :: rest : List Char) ≠ []),
          getLast?_cons_ne hrest]
  | case5 c rest g ih =>
    intro hl _
    have hout : collapseAux false (c :: rest) = c :: collapseAux false rest := by
      simp only [collapseAux]
    rcases rest with _ | ⟨d, rest2⟩
    · exact ⟨by simp [hout, collapseAux], by simp [hout, collapseAux]⟩
    · have hrest : (d :: rest2) ≠ [] := by simp
      rw [lastNotWS_cons hrest] at hl
      obtain ⟨h1, h2⟩ := ih hl hrest
      refine ⟨by simp [hout], ?_⟩
      rw [hout, getLast?_cons_ne h1, h2, getLast?_cons_ne hrest]


theorem dropWhile_length (p : Char → Bool) (l : List Char) :
    (l.dropWhile p).length ≤ l.length := by
  induction l with
  | nil => simp
  | cons c rest ih =>
    rw [List.dropWhile_cons]
    by_cases h : p c
    · simp only [h, if_true]
      exact Nat.le_succ_of_le ih
    · simp [h]

theorem dropNL_commaOKE {l : List Char} (h : commaOKE l = true) :
    commaOKE (l.dropWhile (fun c => c == '\n')) = true := by
  induction l with
  | nil => simpa using h
  | cons c rest ih =>
    rw [List.dropWhile_cons]
    by_cases hc : (c == '\n') = true
    · simp only [hc, if_true]
      apply ih
      have hcc : c ≠ ',' := by
        intro hh; subst hh; simp at hc
      rwa [commaOKE_cons_ne hcc] at h
    · simpa [hc] using h

theorem dropWhile_head_false (p : Char → Bool) (l : List Char) {c : Char} {xs : List Char}
    (h : l.dropWhile p = c :: xs) : p c = false := by
  induction l with
  | nil => simp at h
  | cons d rest ih =>
    rw [List.dropWhile_cons] at h
    by_cases hd : p d
    · rw [if_pos hd] at h; exact ih h
    · rw [if_neg hd] at h
      injection h with h1 _
      subst h1
      simpa using hd

theorem commaOKE_comma_cons (d : Char) (xs : List Char) :
    commaOKE (',' :: '\n' :: d :: xs) = (!isJsWS d && commaOKE (d :: xs)) := by
  simp [commaOKE]

theorem commaOKE_comma_bad {d : Char} (hd : d ≠ '\n') (xs : List Char) :
    commaOKE (',' :: d :: xs) = false := by
  simp [commaOKE, hd]

theorem commaOKE_collapseN : ∀ (n : Nat) (l : List Char), l.length ≤ n →
    commaOKE l = true → commaOKE (collapseAux false l) = true := by
  intro n
  induction n with
  | zero =>
    intro l hl _
    have h0 : l = [] := List.length_eq_zero.mp (Nat.le_zero.mp hl)
    subst h0; rfl
  | succ n ih =>
    intro l hl h
    rcases l with _ | ⟨c, rest⟩
    · rfl
    · by_cases hc : c = ','
      · subst hc
        rcases rest with _ | ⟨d, rest2⟩
        · decide
        · by_cases hd : d = '\n'
          · subst hd
            rcases rest2 with _ | ⟨e, rest3⟩
            · decide
            · rw [commaOKE_comma_cons] at h
              obtain ⟨hew, hrec⟩ := Bool.and_eq_true_iff.mp h
              have hewf : isJsWS e = false := by simpa using hew
              have hnl : e ≠ '\n' := by
                intro hh; subst hh; rw [nl_is_ws] at hewf; exact absurd hewf (by decide)
              have hout : collapseAux false (',' :: '\n' :: e :: rest3)
                  = ',' :: '\n' :: collapseAux false (e :: rest3) := by
                simp [collapseAux, hnl]
              rw [hout]
              have hrec2 := ih (e :: rest3) (by simp at hl ⊢; omega) hrec
              cases hx : collapseAux false (e :: rest3) with
              | nil => decide
              | cons f xs =>
                have hf : f = e := by
                  have hh := collapseAux_false_head (e :: rest3)
                  rw [hx] at hh
                  simpa using hh
                subst hf
                rw [hx] at hrec2
                rw [commaOKE_comma_cons]
                simp [hrec2, hewf]
          · rw [commaOKE_comma_bad hd] at h
            exact absurd h (by simp)
      · by_cases hc2 : c = '\n'
        · subst hc2
          have hnlc : ('\n' : Char) ≠ ',' := by decide
          rcases rest with _ | ⟨d, rest2⟩
          · decide
          · by_cases hd : d = '\n'
            · subst hd
              rcases rest2 with _ | ⟨e, rest3⟩
              · decide
              · by_cases he : e = '\n'
                · subst he
                  rw [commaOKE_cons_ne hnlc, commaOKE_cons_ne hnlc, commaOKE_cons_ne hnlc] at h
                  have hout : collapseAux false ('\n' :: '\n' :: '\n' :: rest3)
                      = '\n' :: '\n' :: collapseAux true rest3 := by simp [collapseAux]
                  rw [hout, collapseAux_true_eq, commaOKE_cons_ne hnlc, commaOKE_cons_ne hnlc]
                  apply ih
                  · have h1 := dropWhile_length (fun c => c == '\n') rest3
                    simp at hl; omega
                  · exact dropNL_commaOKE h
                · rw [commaOKE_cons_ne hnlc] at h
                  have hout : collapseAux false ('\n' :: '\n' :: e :: rest3)
                      = '\n' :: collapseAux false ('\n' :: e :: rest3) := by
                    simp [collapseAux, he]
                  rw [hout, commaOKE_cons_ne hnlc]
                  exact ih _ (by simp at hl ⊢; omega) h
            · rw [commaOKE_cons_ne hnlc] at h
              have hout : collapseAux false ('\n' :: d :: rest2)
                  = '\n' :: collapseAux false (d :: rest2) := by
                simp [collapseAux, hd]
              rw [hout, commaOKE_cons_ne hnlc]
              exact ih _ (by simp at hl ⊢; omega) h
        · rw [commaOKE_cons_ne hc] at h
          have hout : collapseAux false (c :: rest) = c :: collapseAux false rest := by
            simp [collapseAux, hc2]
          rw [hout, commaOKE_cons_ne hc]
          exact ih _ (by simp at hl ⊢; omega) h

theorem commaOKE_collapseNL {l : List Char} (h : commaOKE l = true) :
    commaOKE (collapseNL l) = true :=
  commaOKE_collapseN l.length l (Nat.le_refl _) h

theorem noLongNL_cons_ne {c : Char} (hc : c ≠ '\n') (xs : List Char) :
    noLongNL (c :: xs) = noLongNL xs := by
  simp [noLongNL, hc]


theorem noLongNL_collapseN : ∀ (n : Nat) (l : List Char), l.length ≤ n →
    noLongNL (collapseAux false l) = true := by
  intro n
  induction n with
  | zero =>
    intro l hl
    have h0 : l = [] := List.length_eq_zero.mp (Nat.le_zero.mp hl)
    subst h0; rfl
  | succ n ih =>
    intro l hl
    rcases l with _ | ⟨c, rest⟩
    · rfl
    · by_cases hc : c = '\n'
      · subst hc
        rcases rest with _ | ⟨d, rest2⟩
        · decide
        · by_cases hd : d = '\n'
          · subst hd
            rcases rest2 with _ | ⟨e, rest3⟩
            · decide
            · by_cases he : e = '\n'
              · subst he
                have hout : collapseAux false ('\n' :: '\n' :: '\n' :: rest3)
                    = '\n' :: '\n' :: collapseAux true rest3 := by simp [collapseAux]
                rw [hout, collapseAux_true_eq]
                have hrec := ih (rest3.dropWhile (fun c => c == '\n'))
                  (by have h1 := dropWhile_length (fun c => c == '\n') rest3
                      simp at hl; omega)
                cases hx : collapseAux false (rest3.dropWhile (fun c => c == '\n')) with
                | nil => decide
                | cons f xs =>
                  obtain ⟨g, ys, hg⟩ : ∃ g ys,
                      rest3.dropWhile (fun c => c == '\n') = g :: ys := by
                    cases hdw : rest3.dropWhile (fun c => c == '\n') with
                    | nil => rw [hdw] at hx; simp [collapseAux] at hx
                    | cons g ys => exact ⟨g, ys, rfl⟩
                  have hgf : g = f := by
                    have hh := collapseAux_false_head (rest3.dropWhile (fun c => c == '\n'))
                    rw [hx, hg] at hh
                    simpa using hh.symm
                  subst hgf
                  have hfnl : g ≠ '\n' := by
                    have := dropWhile_head_false (fun c => c == '\n') rest3 hg
                    simpa using this
                  rw [hx] at hrec
                  simpa [noLongNL, hfnl] using hrec
              · have hout : collapseAux false ('\n' :: '\n' :: e :: rest3)
                    = '\n' :: '\n' :: collapseAux false (e :: rest3) := by
                  have h1 : collapseAux false ('\n' :: '\n' :: e :: rest3)
                      = '\n' :: collapseAux false ('\n' :: e :: rest3) := by
                    simp [collapseAux, he]
                  have h2 : collapseAux false ('\n' :: e :: rest3)
                      = '\n' :: collapseAux false (e :: rest3) := by
                    simp [collapseAux, he]
                  rw [h1, h2]
                rw [hout]
                have hrec := ih (e :: rest3) (by simp at hl ⊢; omega)
                cases hx : collapseAux false (e :: rest3) with
                | nil => decide
                | cons f xs =>
                  have hf : f = e := by
                    have hh := collapseAux_false_head (e :: rest3)
                    rw [hx] at hh
                    simpa using hh
                  subst hf
                  rw [hx] at hrec
                  simpa [noLongNL, he] using hrec
          · have hout : collapseAux false ('\n' :: d :: rest2)
                = '\n' :: collapseAux false (d :: rest2) := by
              simp [collapseAux, hd]
            rw [hout]
            have hrec := ih (d :: rest2) (by simp at hl ⊢; omega)
            cases hx : collapseAux false (d :: rest2) with
            | nil => decide
            | cons f xs =>
              have hf : f = d := by
                have hh := collapseAux_false_head (d :: rest2)
                rw [hx] at hh
                simpa using hh
              subst hf
              rw [hx] at hrec
              simpa [noLongNL, hd] using hrec
      · have hout : collapseAux false (c :: rest) = c :: collapseAux false rest := by
          simp [collapseAux, hc]
        rw [hout, noLongNL_cons_ne hc]
        exact ih rest (by simp at hl ⊢; omega)

theorem noLongNL_collapseNL (l : List Char) : noLongNL (collapseNL l) = true :=
  noLongNL_collapseN l.length l (Nat.le_refl _)

theorem collapse_idN : ∀ (n : Nat) (l : List Char), l.length ≤ n →
    noLongNL l = true → collapseAux false l = l := by
  intro n
  induction n with
  | zero =>
    intro l hl _
    have h0 : l = [] := List.length_eq_zero.mp (Nat.le_zero.mp hl)
    subst h0; rfl
  | succ n ih =>
    intro l hl h
    rcases l with _ | ⟨c, rest⟩
    · rfl
    · by_cases hc : c = '\n'
      · subst hc
        rcases rest with _ | ⟨d, rest2⟩
        · decide
        · by_cases hd : d = '\n'
          · subst hd
            rcases rest2 with _ | ⟨e, rest3⟩
            · decide
            · by_cases he : e = '\n'
              · subst he
                rw [show noLongNL ('\n' :: '\n' :: '\n' :: rest3) = false from by
                    simp [noLongNL]] at h
                exact absurd h (by simp)
              · have hout : collapseAux false ('\n' :: '\n' :: e :: rest3)
                    = '\n' :: '\n' :: collapseAux false (e :: rest3) := by
                  have h1 : collapseAux false ('\n' :: '\n' :: e :: rest3)
                      = '\n' :: collapseAux false ('\n' :: e :: rest3) := by
                    simp [collapseAux, he]
                  have h2 : collapseAux false ('\n' :: e :: rest3)
                      = '\n' :: collapseAux false (e :: rest3) := by
                    simp [collapseAux, he]
                  rw [h1, h2]
                have hrest : noLongNL (e :: rest3) = true := by
                  rwa [show noLongNL ('\n' :: '\n' :: e :: rest3) = noLongNL (e :: rest3) from by
                    simp [noLongNL, he]] at h
                rw [hout, ih (e :: rest3) (by simp at hl ⊢; omega) hrest]
          · have hout : collapseAux false ('\n' :: d :: rest2)
                = '\n' :: collapseAux false (d :: rest2) := by
              simp [collapseAux, hd]
            have hrest : noLongNL (d :: rest2) = true := by
              rwa [show noLongNL ('\n' :: d :: rest2) = noLongNL (d :: rest2) from by
                simp [noLongNL, hd]] at h
            rw [hout, ih (d :: rest2) (by simp at hl ⊢; omega) hrest]
      · have hout : collapseAux false (c :: rest) = c :: collapseAux false rest := by
          simp [collapseAux, hc]
        rw [noLongNL_cons_ne hc] at h
        rw [hout, ih rest (by simp at hl ⊢; omega) h]

theorem collapseNL_id {l : List Char} (h : noLongNL l = true) : collapseNL l = l :=
  collapse_idN l.length l (Nat.le_refl _) h


theorem noEdgeWS_collapseNL {l : List Char} (h : noEdgeWS l = true) :
    noEdgeWS (collapseNL l) = true := by
  rcases l with _ | ⟨c, rest⟩
  · rfl
  · obtain ⟨h1, h2⟩ := Bool.and_eq_true_iff.mp h
    obtain ⟨hne, hlast⟩ := collapseAux_last false (c :: rest) h2 (by simp)
    have hcw : isJsWS c = false := by simpa [headNotWS] using h1
    have hhead : (collapseAux false (c :: rest)).head? = some c := by
      rw [collapseAux_false_head]; rfl
    have hh : headNotWS (collapseNL (c :: rest)) = true := by
      simp [collapseNL, headNotWS, hhead, hcw]
    have hl2 : lastNotWS (collapseNL (c :: rest)) = true := by
      simpa only [collapseNL, lastNotWS, hlast] using h2
    simp [noEdgeWS, hh, hl2]

theorem commaAux_true_cons_eq {c : Char} (hw : isJsWS c = false) (rest : List Char) :
    commaAux true (c :: rest) = commaAux false (c :: rest) := by
  simp [commaAux, hw]

theorem commaSingleNL_of_commaOKE {l : List Char} (h : commaOKE l = true) :
    commaSingleNL l = true := by
  induction l using commaOKE.induct with
  | case1 => rfl
  | case2 => rfl
  | case3 => rfl
  | case4 c rest ih =>
    rw [commaOKE_comma_cons] at h
    obtain ⟨hw, hrec⟩ := Bool.and_eq_true_iff.mp h
    have hwf : isJsWS c = false := by simpa using hw
    have hcnl : c ≠ '\n' := by
      intro hh; subst hh; rw [nl_is_ws] at hwf; exact absurd hwf (by decide)
    have hres := ih hrec
    simpa [commaSingleNL, hcnl] using hres
  | case5 tail g0 g1 g2 =>
    exfalso
    rcases tail with _ | ⟨d, t⟩
    · exact g0 rfl
    · by_cases hd : d = '\n'
      · subst hd
        rcases t with _ | ⟨e, t2⟩
        · exact g1 rfl
        · exact g2 e t2 rfl
      · rw [commaOKE_comma_bad hd] at h
        exact absurd h (by simp)
  | case6 c rest g0 g1 g2 g3 ih =>
    rw [commaOKE_cons_ne g3] at h
    rw [commaSingleNL_cons_ne g3]
    exact ih h

theorem commaAux_fixed {l : List Char} (h : commaOKE l = true) :
    commaAux false l = l ∨ commaAux false l = l ++ ['\n'] := by
  induction l using commaOKE.induct with
  | case1 => left; rfl
  | case2 => right; rfl
  | case3 => left; decide
  | case4 c rest ih =>
    rw [commaOKE_comma_cons] at h
    obtain ⟨hw, hrec⟩ := Bool.and_eq_true_iff.mp h
    have hwf : isJsWS c = false := by simpa using hw
    have hstep : commaAux false (',' :: '\n' :: c :: rest)
        = ',' :: '\n' :: commaAux false (c :: rest) := by
      rw [show commaAux false (',' :: '\n' :: c :: rest)
            = ',' :: '\n' :: commaAux true ('\n' :: c :: rest) from by simp [commaAux],
          show commaAux true ('\n' :: c :: rest) = commaAux true (c :: rest) from by
            simp [commaAux, nl_is_ws],
          commaAux_true_cons_eq hwf]
    rcases ih hrec with h1 | h1
    · left; rw [hstep, h1]
    · right; rw [hstep, h1]; simp
  | case5 tail g0 g1 g2 =>
    exfalso
    rcases tail with _ | ⟨d, t⟩
    · exact g0 rfl
    · by_cases hd : d = '\n'
      · subst hd
        rcases t with _ | ⟨e, t2⟩
        · exact g1 rfl
        · exact g2 e t2 rfl
      · rw [commaOKE_comma_bad hd] at h
        exact absurd h (by simp)
  | case6 c rest g0 g1 g2 g3 ih =>
    rw [commaOKE_cons_ne g3] at h
    have hstep : commaAux false (c :: rest) = c :: commaAux false rest := by
      simp only [commaAux, Bool.false_and, Bool.false_eq_true, if_false]
      rw [if_neg g3]
    rcases ih h with h1 | h1
    · left; rw [hstep, h1]
    · right; rw [hstep, h1]; simp

theorem dropWhile_ws_id {l : List Char} (h : headNotWS l = true) :
    l.dropWhile isJsWS = l := by
  rcases l with _ | ⟨c, rest⟩
  · rfl
  · have hcw : isJsWS c = false := by simpa [headNotWS] using h
    simp [List.dropWhile_cons, hcw]

theorem trimRight_id {l : List Char} (h : lastNotWS l = true) : trimRight l = l := by
  induction l with
  | nil => rfl
  | cons c rest ih =>
    rcases rest with _ | ⟨d, rest2⟩
    · have hcw : isJsWS c = false := by
        simpa [lastNotWS, List.getLast?_singleton] using h
      simp [trimRight, hcw]
    · rw [lastNotWS_cons (by simp)] at h
      rw [trimRight_cons, ih h]


theorem trimJS_id {l : List Char} (h : noEdgeWS l = true) : trimJS l = l := by
  obtain ⟨h1, h2⟩ := Bool.and_eq_true_iff.mp h
  unfold trimJS
  rw [dropWhile_ws_id h1, trimRight_id h2]

theorem trimRight_append_nl : ∀ {l : List Char}, lastNotWS l = true → l ≠ [] →
    trimRight (l ++ ['\n']) = l := by
  intro l
  induction l with
  | nil => intro _ hne; exact absurd rfl hne
  | cons c rest ih =>
    intro h hne
    rcases rest with _ | ⟨d, rest2⟩
    · have hcw : isJsWS c = false := by
        simpa [lastNotWS, List.getLast?_singleton] using h
      simp [trimRight, hcw, nl_is_ws]
    · rw [lastNotWS_cons (by simp)] at h
      have hrec := ih h (by simp)
      rw [List.cons_append, trimRight_cons, hrec]

theorem trimJS_append_nl {l : List Char} (h : noEdgeWS l = true) (hne : l ≠ []) :
    trimJS (l ++ ['\n']) = l := by
  obtain ⟨h1, h2⟩ := Bool.and_eq_true_iff.mp h
  have h1a : headNotWS (l ++ ['\n']) = true := by
    rcases l with _ | ⟨c, rest⟩
    · exact absurd rfl hne
    · simpa [headNotWS] using h1
  unfold trimJS
  rw [dropWhile_ws_id h1a, trimRight_append_nl h2 hne]

theorem stripCRLF_id {l : List Char} (h : '\r' ∉ l) : stripCRLF l = l := by
  induction l with
  | nil => rfl
  | cons c rest ih =>
    have hc : c ≠ '\r' := by
      intro hh; subst hh; exact h (List.mem_cons_self _ _)
    have hrest : '\r' ∉ rest := fun hm => h (List.mem_cons_of_mem _ hm)
    rw [show stripCRLF (c :: rest) = c :: stripCRLF rest from by
          simp [stripCRLF, hc],
        ih hrest]

theorem mem_dropWhile {p : Char → Bool} {x : Char} : ∀ {l : List Char},
    x ∈ l.dropWhile p → x ∈ l := by
  intro l
  induction l with
  | nil => intro h; simp at h
  | cons c rest ih =>
    intro h
    rw [List.dropWhile_cons] at h
    by_cases hc : p c
    · rw [if_pos hc] at h
      exact List.mem_cons_of_mem _ (ih h)
    · rwa [if_neg hc] at h

theorem mem_trimRight {x : Char} : ∀ {l : List Char}, x ∈ trimRight l → x ∈ l := by
  intro l
  induction l with
  | nil =>
    intro h
    rw [show trimRight ([] : List Char) = [] from rfl] at h
    exact absurd h (by simp)
  | cons c rest ih =>
    intro h
    rw [trimRight_cons] at h
    cases htr : trimRight rest with
    | nil =>
      rw [htr] at h
      by_cases hw : isJsWS c
      · simp [hw] at h
      · simp [hw] at h
        simp [h]
    | cons d t =>
      rw [htr] at h
      rcases List.mem_cons.mp h with h1 | h1
      · simp [h1]
      · exact List.mem_cons_of_mem _ (ih (htr ▸ h1))

theorem mem_commaAux {x : Char} : ∀ (b : Bool) {l : List Char},
    x ∈ commaAux b l → x ∈ l ∨ x = '\n' := by
  intro b l
  induction l generalizing b with
  | nil => intro h; simp [commaAux] at h
  | cons c rest ih =>
    intro h
    by_cases hw : (b && isJsWS c) = true
    · rw [show commaAux b (c :: rest) = commaAux true rest from by
        simp [commaAux, hw]] at h
      rcases ih true h with h1 | h1
      · exact Or.inl (List.mem_cons_of_mem _ h1)
      · exact Or.inr h1
    · by_cases hc : c = ','
      · subst hc
        rw [show commaAux b (',' :: rest) = ',' :: '\n' :: commaAux true rest from by
          simp [commaAux, hw]] at h
        rcases List.mem_cons.mp h with h1 | h1
        · exact Or.inl (h1 ▸ List.mem_cons_self _ _)
        · rcases List.mem_cons.mp h1 with h2 | h2
          · exact Or.inr h2
          · rcases ih true h2 with h3 | h3
            · exact Or.inl (List.mem_cons_of_mem _ h3)
            · exact Or.inr h3
      · rw [show commaAux b (c :: rest) = c :: commaAux false rest from by
          simp [commaAux, hw, hc]] at h
        rcases List.mem_cons.mp h with h1 | h1
        · exact Or.inl (h1 ▸ List.mem_cons_self _ _)
        · rcases ih false h1 with h2 | h2
          · exact Or.inl (List.mem_cons_of_mem _ h2)
          · exact Or.inr h2

theorem mem_collapseAux {x : Char} : ∀ (b : Bool) {l : List Char},
    x ∈ collapseAux b l → x ∈ l ∨ x = '\n' := by
  intro b l
  induction b, l using collapseAux.induct with
  | case1 y => intro h; simp [collapseAux] at h
  | case2 rest ih =>
    intro h
    rw [show collapseAux true ('\n' :: rest) = collapseAux true rest from by
      simp [collapseAux]] at h
    rcases ih h with h1 | h1
    · exact Or.inl (List.mem_cons_of_mem _ h1)
    · exact Or.inr h1
  | case3 c rest hc ih =>
    intro h
    rw [show collapseAux true (c :: rest) = c :: collapseAux false rest from by
      simp [collapseAux, hc]] at h
    rcases List.mem_cons.mp h with h1 | h1
    · exact Or.inl (h1 ▸ List.mem_cons_self _ _)
    · rcases ih h1 with h2 | h2
      · exact Or.inl (List.mem_cons_of_mem _ h2)
      · exact Or.inr h2
  | case4 rest ih =>
    intro h
    rw [show collapseAux false ('\n' :: '\n' :: '\n' :: rest)
        = '\n' :: '\n' :: collapseAux true rest from by simp [collapseAux]] at h
    rcases List.mem_cons.mp h with h1 | h1
    · exact Or.inr h1
    · rcases List.mem_cons.mp h1 with h2 | h2
      · exact Or.inr h2
      · rcases ih h2 with h3 | h3
        · exact Or.inl (List.mem_cons_of_mem _ (List.mem_cons_of_mem _ (List.mem_cons_of_mem _ h3)))
        · exact Or.inr h3
  | case5 c rest g ih =>
    intro h
    rw [show collapseAux false (c :: rest) = c :: collapseAux false rest from by
      simp only [collapseAux]] at h
    rcases List.mem_cons.mp h with h1 | h1
    · exact Or.inl (h1 ▸ List.mem_cons_self _ _)
    · rcases ih h1 with h2 | h2
      · exact Or.inl (List.mem_cons_of_mem _ h2)
      · exact Or.inr h2

theorem normalize_shape (l : List Char) :
    commaOKE (normalize l) = true ∧ noLongNL (normalize l) = true ∧
      noEdgeWS (normalize l) = true :=
  ⟨commaOKE_collapseNL (commaOKE_trimJS (commaAux_commaOK _ false)),
   noLongNL_collapseNL _,
   noEdgeWS_collapseNL (noEdgeWS_trimJS _)⟩

theorem normalize_no_cr {l : List Char} (h : '\r' ∉ l) : '\r' ∉ normalize l := by
  intro hm
  unfold normalize collapseNL at hm
  rcases mem_collapseAux false hm with h1 | h1
  · unfold trimJS at h1
    have h2 := mem_dropWhile (mem_trimRight h1)
    rcases mem_commaAux false h2 with h3 | h3
    · rw [stripCRLF_id h] at h3
      exact h h3
    · exact absurd h3 (by decide)
  · exact absurd h1 (by decide)

theorem normalize_idem {l : List Char} (h : '\r' ∉ l) :
    normalize (normalize l) = normalize l := by
  obtain ⟨hok, hnl, hedge⟩ := normalize_shape l
  have hcr : '\r' ∉ normalize l := normalize_no_cr h
  generalize hgen : normalize l = y at hok hnl hedge hcr ⊢
  show collapseNL (trimJS (commaStep (stripCRLF y))) = y
  rw [stripCRLF_id hcr]
  rcases commaAux_fixed hok with hfix | hfix
  · rw [show commaStep y = y from hfix, trimJS_id hedge, collapseNL_id hnl]
  · have hne : y ≠ [] := by
      intro h0
      rw [h0] at hfix
      simp [commaAux] at hfix
    rw [show commaStep y = y ++ ['\n'] from hfix,
      trimJS_append_nl hedge hne, collapseNL_id hnl]


theorem countP_eq_one_of_unique {t : String} : ∀ {l : List ProfileSection},
    l.Pairwise (fun a b => a.id ≠ b.id) → (∃ s ∈ l, s.id = t) →
    l.countP (fun s => s.id == t) = 1 := by
  intro l
  induction l with
  | nil =>
    rintro _ ⟨s, hs, _⟩
    simp at hs
  | cons a l ih =>
    intro hp hex
    rw [List.countP_cons]
    by_cases ha : a.id = t
    · have h0 : l.countP (fun s => s.id == t) = 0 := by
        rw [List.countP_eq_zero]
        intro s hs
        have hne := (List.pairwise_cons.mp hp).1 s hs
        rw [ha] at hne
        simp [hne.symm]
      simp [h0, ha]
    · obtain ⟨s, hs, hst⟩ := hex
      rcases List.mem_cons.mp hs with rfl | hs2
      · exact absurd hst ha
      · have ih2 := ih (List.pairwise_cons.mp hp).2 ⟨s, hs2, hst⟩
        simp [ih2, ha]

theorem activateTab_sections {st : TabState} {i : Nat} {tab : Tab}
    (h : st.tabs[i]? = some tab)
    (hp : st.sections.Pairwise (fun a b => a.id ≠ b.id))
    (hex : ∃ s ∈ st.sections, s.id = tab.target) :
    (activateTab st i).sections.countP (fun s => s.active) = 1 ∧
      ∀ s ∈ (activateTab st i).sections, s.hidden = !s.active := by
  have hact : (activateTab st i).sections
      = st.sections.map (fun s =>
          { s with active := s.id == tab.target, hidden := !(s.id == tab.target) }) := by
    unfold activateTab
    rw [h]
  constructor
  · rw [hact, List.countP_map]
    have := countP_eq_one_of_unique hp hex
    simpa [Function.comp] using this
  · intro s hs
    rw [hact] at hs
    obtain ⟨s0, _, rfl⟩ := List.mem_map.mp hs
    rfl


/-! ## The claims -/

/-- Claim C1, counterexample.  When the initial markup marks no section
active, the initialization code leaves every section inactive and hidden:
after the hidden-attribute sync on `tabStateNoActive`, zero (not exactly one)
sections carry the active class, all sections are hidden, and the
`basic-info` section is merely selected as the resize target — it does not
become active.  This refutes the claim's parenthetical that the named default
section then becomes the active one. -/
theorem C1_counterexample :
    (initSync tabStateNoActive).sections.countP (fun s => s.active) = 0 ∧
      (∀ s ∈ (initSync tabStateNoActive).sections, s.hidden = true) ∧
      initialActive tabStateNoActive
        = some { id := "basic-info", active := false, hidden := false } := by
  decide

/-- Claim C1, amended.  After every `activateTab` call on a tab whose
target matches exactly one section (section ids pairwise distinct), exactly
one section carries the active class and every section's hidden attribute
equals the negation of its active class — so the active section is visible
and all others hidden.  At initialization the code only synchronizes each
section's hidden attribute to the negation of its active class; when the
markup marks no section active, no section becomes active (the `basic-info`
section is used only as the resize target). -/
theorem C1_theorem :
    (∀ (st : TabState) (i : Nat) (tab : Tab), st.tabs[i]? = some tab →
        st.sections.Pairwise (fun a b => a.id ≠ b.id) →
        (∃ s ∈ st.sections, s.id = tab.target) →
        (activateTab st i).sections.countP (fun s => s.active) = 1 ∧
          ∀ s ∈ (activateTab st i).sections, s.hidden = !s.active) ∧
      ∀ st : TabState, ∀ s ∈ (initSync st).sections, s.hidden = !s.active := by
  constructor
  · intro st i tab h hp hex
    exact activateTab_sections h hp hex
  · intro st s hs
    rw [show (initSync st).sections
        = st.sections.map (fun s => { s with hidden := !s.active }) from rfl] at hs
    obtain ⟨s0, _, rfl⟩ := List.mem_map.mp hs
    rfl

/-- Witness for C1: the amended activateTab invariant evaluated on the
concrete state `tabStateOneActive`, clicking the tab that targets
`career`. -/
theorem C1_witness :
    tabStateOneActive.tabs[0]?
        = some { target := "career", active := false, ariaSelected := false } ∧
      (activateTab tabStateOneActive 0).sections.countP (fun s => s.active) = 1 ∧
        ∀ s ∈ (activateTab tabStateOneActive 0).sections, s.hidden = !s.active :=
  ⟨by decide,
   C1_theorem.1 tabStateOneActive 0
     { target := "career", active := false, ariaSelected := false }
     (by decide) (by decide)
     ⟨{ id := "career", active := false, hidden := true }, by decide, by decide⟩⟩

/-- Claim C2, counterexample.  The input `"a,"` contains a comma and is a
fixed point of the normalization, yet in the output the comma is not followed
by any newline (the regex first appends `,\n`, then `.trim()` removes the
trailing newline again): the claimed invariant "every comma is immediately
followed by exactly one newline" fails, and the comma was not already
followed by a newline, so the claim's exception does not apply. -/
theorem C2_counterexample :
    (',' ∈ "a,".data) ∧ normalizeStr ("a,") = "a," ∧
      commaAlwaysNL (normalizeStr ("a,")).data = false := by
  decide

/-- Claim C2, amended.  For every input string, in the string written back
by `normalizeCommaNewlines` every comma is immediately followed by exactly
one newline, except that a comma standing at the very end of the output is
allowed (a comma whose following text is only whitespace has its inserted
newline trimmed away); in particular `"a, b,\nc"` normalizes to
`"a,\nb,\nc"`. -/
theorem C2_theorem :
    (∀ s : String, commaSingleNL (normalizeStr s).data = true) ∧
      normalizeStr ("a, b,\nc") = "a,\nb,\nc" := by
  refine ⟨?_, by decide⟩
  intro s
  exact commaSingleNL_of_commaOKE (normalize_shape s.data).1

/-- Claim C3, counterexample.  Normalization is not idempotent as a pure
string function: `"a\r\r\nb"` normalizes to `"a\r\nb"` (the global CRLF
replacement resumes after each match, so the freshly adjacent `\r\n` pair
survives), and a second application yields `"a\nb"`. -/
theorem C3_counterexample :
    normalizeStr (normalizeStr ("a\r\r\nb")) ≠ normalizeStr ("a\r\r\nb") := by
  decide

/-- Claim C3, amended.  `normalizeCommaNewlines` is idempotent on every
value that contains no carriage-return character — in particular on every
value a browser textarea can actually hold, since the textarea API value has
CR and CRLF normalized to LF. -/
theorem C3_theorem (s : String) (h : '\r' ∉ s.data) :
    normalizeStr (normalizeStr s) = normalizeStr s := by
  show (⟨normalize (normalize s.data)⟩ : String) = ⟨normalize s.data⟩
  rw [normalize_idem h]

/-- Witness for C3: idempotence evaluated at the concrete CR-free input
`"a, b,\nc"`. -/
theorem C3_witness :
    '\r' ∉ "a, b,\nc".data ∧
      normalizeStr (normalizeStr ("a, b,\nc")) = normalizeStr ("a, b,\nc") :=
  ⟨by decide, C3_theorem ("a, b,\nc") (by decide)⟩

/-- Claim C4, confirmed.  For every input string the output of
`normalizeCommaNewlines` contains no run of three or more consecutive
newlines and has no leading or trailing whitespace; in particular
`"a\n\n\n\nb"` normalizes to `"a\n\nb"`. -/
theorem C4_theorem :
    (∀ s : String, noLongNL (normalizeStr s).data = true ∧
        noEdgeWS (normalizeStr s).data = true) ∧
      normalizeStr ("a\n\n\n\nb") = "a\n\nb" := by
  refine ⟨fun s => ⟨(normalize_shape s.data).2.1, (normalize_shape s.data).2.2⟩, by decide⟩

/-- Claim C5, confirmed.  Clicking the edit control with the tracked fields
disabled enables every tracked field, sets the control's label to the cancel
label (`취소`) and reveals the save control (`display: inline-block`);
clicking it with the fields enabled disables every tracked field, resets the
dirty flag, restores the edit label (`수정`) and hides the save control
(`display: none`) — and in both directions no field's value (nor any list
area's text) is altered. -/
theorem C5_theorem (st : FormState) :
    (editClick st).fields.map Field.value = st.fields.map Field.value ∧
    (editClick st).listAreas = st.listAreas ∧
    ((∀ f ∈ st.fields, f.disabled = true) →
      (∀ f ∈ (editClick st).fields, f.disabled = false) ∧
        (editClick st).editLabel = "취소" ∧
        (editClick st).saveDisplay = "inline-block") ∧
    (st.fields ≠ [] → (∀ f ∈ st.fields, f.disabled = false) →
      (∀ f ∈ (editClick st).fields, f.disabled = true) ∧
        (editClick st).dirty = false ∧
        (editClick st).editLabel = "수정" ∧
        (editClick st).saveDisplay = "none") := by
  rcases hsf : st.fields with _ | ⟨f0, rest⟩
  · have he : editClick st =
        { st with fields := ([] : List Field),
                  editLabel := "취소", saveDisplay := "inline-block" } := by
      simp [editClick, hsf]
    exact ⟨by rw [he], by rw [he],
      fun _ => ⟨by rw [he]; simp, by rw [he], by rw [he]⟩,
      fun hne _ => absurd rfl hne⟩
  · by_cases hf0 : f0.disabled = true
    · have he : editClick st =
          { st with fields := st.fields.map (fun f => { f with disabled := false }),
                    editLabel := "취소", saveDisplay := "inline-block" } := by
        simp [editClick, hsf, hf0]
      refine ⟨?_, by rw [he], fun _ => ⟨?_, by rw [he], by rw [he]⟩, ?_⟩
      · rw [he]
        show (st.fields.map _).map Field.value = _
        rw [List.map_map, hsf]
        rfl
      · intro f hf
        rw [he] at hf
        obtain ⟨g, _, rfl⟩ := List.mem_map.mp hf
        rfl
      · intro _ hall
        have hcontra := hall f0 (List.mem_cons_self _ _)
        rw [hf0] at hcontra
        exact absurd hcontra (by decide)
    · have hf0f : f0.disabled = false := by simpa using hf0
      have he : editClick st =
          { st with fields := st.fields.map (fun f => { f with disabled := true }),
                    dirty := false, editLabel := "수정", saveDisplay := "none" } := by
        simp [editClick, hsf, hf0f]
      refine ⟨?_, by rw [he], ?_, fun _ _ => ⟨?_, by rw [he], by rw [he], by rw [he]⟩⟩
      · rw [he]
        show (st.fields.map _).map Field.value = _
        rw [List.map_map, hsf]
        rfl
      · intro hall
        have hcontra := hall f0 (List.mem_cons_self _ _)
        rw [hf0f] at hcontra
        exact absurd hcontra (by decide)
      · intro f hf
        rw [he] at hf
        obtain ⟨g, _, rfl⟩ := List.mem_map.mp hf
        rfl

/-- Witness for C5: both directions of the edit toggle evaluated on the
concrete states `lockedForm` and `editingForm`. -/
theorem C5_witness :
    (∀ f ∈ lockedForm.fields, f.disabled = true) ∧
    ((∀ f ∈ (editClick lockedForm).fields, f.disabled = false) ∧
      (editClick lockedForm).editLabel = "취소" ∧
      (editClick lockedForm).saveDisplay = "inline-block") ∧
    editingForm.fields ≠ [] ∧
    (∀ f ∈ editingForm.fields, f.disabled = false) ∧
    ((∀ f ∈ (editClick editingForm).fields, f.disabled = true) ∧
      (editClick editingForm).dirty = false ∧
      (editClick editingForm).editLabel = "수정" ∧
      (editClick editingForm).saveDisplay = "none") ∧
    (editClick lockedForm).fields.map Field.value = lockedForm.fields.map Field.value :=
  ⟨by decide, (C5_theorem lockedForm).2.2.1 (by decide),
   by decide, by decide,
   (C5_theorem editingForm).2.2.2 (by decide) (by decide),
   (C5_theorem lockedForm).1⟩

/-- Claim C6, confirmed.  Any input event on the form sets the dirty flag
(in particular while in edit mode); while the dirty flag is set the
`beforeunload` handler prevents the default, triggering the native
confirmation prompt; and after canceling edit mode (clicking edit while the
first tracked field is enabled) the dirty flag is false and an attempted
unload does not trigger the prompt. -/
theorem C6_theorem (st : FormState) :
    (inputEvent st).dirty = true ∧
    (st.dirty = true → beforeunload st = true) ∧
    (∀ f, st.fields.head? = some f → f.disabled = false →
      (editClick st).dirty = false ∧ beforeunload (editClick st) = false) := by
  refine ⟨?_, fun h => h, ?_⟩
  · unfold inputEvent
    by_cases h : st.dirty <;> simp [h]
  · intro f hh hd
    have he : (editClick st).dirty = false := by
      simp [editClick, hh, hd]
    exact ⟨he, he⟩

/-- Witness for C6: the dirty/beforeunload flow evaluated on the concrete
state `editingForm`. -/
theorem C6_witness :
    (inputEvent editingForm).dirty = true ∧
    editingForm.dirty = true ∧ beforeunload editingForm = true ∧
    editingForm.fields.head? = some { value := "alice", disabled := false } ∧
    (editClick editingForm).dirty = false ∧
    beforeunload (editClick editingForm) = false := by
  refine ⟨(C6_theorem editingForm).1, rfl, (C6_theorem editingForm).2.1 rfl, by decide, ?_, ?_⟩
  · exact ((C6_theorem editingForm).2.2 { value := "alice", disabled := false }
      (by decide) (by decide)).1
  · exact ((C6_theorem editingForm).2.2 { value := "alice", disabled := false }
      (by decide) (by decide)).2

/-- Claim C7, confirmed.  Each activation of the save control prevents the
default button behavior, re-applies `normalizeCommaNewlines` to every
list-kind text area, adds the `active` class to the loading indicator, and
requests exactly one form submission (the submission counter increases by
exactly one). -/
theorem C7_theorem (st : FormState) :
    (saveClick st).2 = true ∧
    (saveClick st).1.listAreas = st.listAreas.map normalizeStr ∧
    (saveClick st).1.loadingActive = true ∧
    (saveClick st).1.submitted = st.submitted + 1 :=
  ⟨rfl, rfl, rfl, rfl⟩

/-- Claim C8, confirmed.  On a tab keydown at index `i` of `n` tabs,
ArrowRight moves focus and activation to index `(i + 1) % n` and ArrowLeft to
`(i + n - 1) % n`, both with default prevented — so the last tab wraps to the
first on ArrowRight and the first tab wraps to the last on ArrowLeft — and
for every other key the handler changes nothing and does not prevent the
default. -/
theorem C8_theorem (st : TabState) (i : Nat) (hi : i < st.tabs.length) :
    (tabKeydown st i ("ArrowRight")
        = (activateTab st ((i + 1) % st.tabs.length), true,
           some ((i + 1) % st.tabs.length))) ∧
    (tabKeydown st i ("ArrowLeft")
        = (activateTab st ((i + st.tabs.length - 1) % st.tabs.length), true,
           some ((i + st.tabs.length - 1) % st.tabs.length))) ∧
    (i = st.tabs.length - 1 → (tabKeydown st i ("ArrowRight")).2.2 = some 0) ∧
    (i = 0 → (tabKeydown st i ("ArrowLeft")).2.2 = some (st.tabs.length - 1)) ∧
    (∀ key : String, key ≠ "ArrowRight" → key ≠ "ArrowLeft" →
      tabKeydown st i key = (st, false, none)) := by
  have hn : 0 < st.tabs.length := Nat.lt_of_le_of_lt (Nat.zero_le i) hi
  have hright : (((i : Int) + 1 + st.tabs.length) % st.tabs.length).toNat
      = (i + 1) % st.tabs.length := by
    rw [show (i : Int) + 1 + st.tabs.length = ((i + 1 + st.tabs.length : Nat) : Int) from by
      push_cast; ring]
    rw [show (((i + 1 + st.tabs.length : Nat) : Int) % ((st.tabs.length : Nat) : Int)).toNat
        = (i + 1 + st.tabs.length) % st.tabs.length from rfl]
    exact Nat.add_mod_right _ _
  have hleft : (((i : Int) + -1 + st.tabs.length) % st.tabs.length).toNat
      = (i + st.tabs.length - 1) % st.tabs.length := by
    have h2 : 1 ≤ i + st.tabs.length := by omega
    rw [show (i : Int) + -1 + st.tabs.length = ((i + st.tabs.length - 1 : Nat) : Int) from by
      push_cast [h2]; ring]
    rw [show (((i + st.tabs.length - 1 : Nat) : Int) % ((st.tabs.length : Nat) : Int)).toNat
        = (i + st.tabs.length - 1) % st.tabs.length from rfl]
  have hr : tabKeydown st i ("ArrowRight")
      = (activateTab st ((i + 1) % st.tabs.length), true,
         some ((i + 1) % st.tabs.length)) := by
    simp only [tabKeydown]
    rw [show (("ArrowRight" == "ArrowRight") || ("ArrowRight" == "ArrowLeft")) = true
        from by decide]
    simp only [if_true]
    rw [show (if ("ArrowRight" : String) == "ArrowRight" then (1 : Int) else -1) = 1
        from by decide]
    rw [hright]
  have hl : tabKeydown st i ("ArrowLeft")
      = (activateTab st ((i + st.tabs.length - 1) % st.tabs.length), true,
         some ((i + st.tabs.length - 1) % st.tabs.length)) := by
    simp only [tabKeydown]
    rw [show (("ArrowLeft" == "ArrowRight") || ("ArrowLeft" == "ArrowLeft")) = true
        from by decide]
    simp only [if_true]
    rw [show (if ("ArrowLeft" : String) == "ArrowRight" then (1 : Int) else -1) = -1
        from by decide]
    rw [hleft]
  refine ⟨hr, hl, ?_, ?_, ?_⟩
  · intro hlast
    rw [hr]
    subst hlast
    have : (st.tabs.length - 1 + 1) % st.tabs.length = 0 := by
      rw [Nat.sub_add_cancel hn, Nat.mod_self]
    rw [this]
  · intro h0
    subst h0
    rw [hl]
    have : (0 + st.tabs.length - 1) % st.tabs.length = st.tabs.length - 1 := by
      rw [Nat.zero_add, Nat.mod_eq_of_lt (by omega)]
    rw [this]
  · intro key hk1 hk2
    have e1 : (key == "ArrowRight") = false := beq_eq_false_iff_ne.mpr hk1
    have e2 : (key == "ArrowLeft") = false := beq_eq_false_iff_ne.mpr hk2
    simp [tabKeydown, e1, e2]

/-- Witness for C8: wrap-around in both directions evaluated on the
concrete two-tab state `tabStateNoActive`. -/
theorem C8_witness :
    1 < tabStateNoActive.tabs.length ∧
      (tabKeydown tabStateNoActive 1 ("ArrowRight")).2.2 = some 0 ∧
      (tabKeydown tabStateNoActive 0 ("ArrowLeft")).2.2 = some 1 := by
  refine ⟨by decide, ?_, ?_⟩
  · exact (C8_theorem tabStateNoActive 1 (by decide)).2.2.1 (by decide)
  · exact (C8_theorem tabStateNoActive 0 (by decide)).2.2.2.1 rfl

/-- Claim C9, counterexample.  The two variants are not observationally
equivalent: activating the `career` tab from `tabStateOneActive` leaves the
section states different — variant 1 synchronizes the `hidden` attribute
(career becomes visible, basic-info hidden) while variant 2 leaves both
`hidden` attributes unchanged, so in variant 2 the newly active section is
still hidden. -/
theorem C9_counterexample :
    (activateTab tabStateOneActive 0).sections
      ≠ (tabClickV2 tabStateOneActive 0).sections := by
  decide

/-- Claim C9, amended.  The two variants agree where their code coincides —
the normalization function is identical, the edit toggle produces the same
fields, label and save-control visibility, and each save activation requests
exactly one submission with the same normalized list areas and prevented
default — but they are not equivalent on all observable behavior: there is a
DOM state and tab activation on which the resulting section states differ
(variant 1 writes the `hidden` attributes and `aria-selected`, variant 2 does
not; variant 2 also lacks keyboard navigation, the `basic-info` fallback, the
dirty flag and the `beforeunload` warning, and defers its submission by a
fixed 300 ms). -/
theorem C9_theorem :
    (∀ s : String, normalizeStrV2 s = normalizeStr s) ∧
    (∀ st : FormState,
      (editClickV2 st).fields = (editClick st).fields ∧
        (editClickV2 st).editLabel = (editClick st).editLabel ∧
        (editClickV2 st).saveDisplay = (editClick st).saveDisplay) ∧
    (∀ st : FormState,
      (saveClickV2 st).1.submitted = st.submitted + 1 ∧
        (saveClickV2 st).1.listAreas = (saveClick st).1.listAreas ∧
        (saveClickV2 st).2 = (saveClick st).2) ∧
    (∃ (st : TabState) (i : Nat),
      (activateTab st i).sections ≠ (tabClickV2 st i).sections) := by
  refine ⟨fun s => rfl, ?_, ?_, ⟨tabStateOneActive, 0, by decide⟩⟩
  · intro st
    by_cases h : (match st.fields.head? with | some f => f.disabled | none => true) = true
    · simp [editClick, editClickV2, h]
    · simp [editClick, editClickV2, h]
  · intro st
    refine ⟨rfl, ?_, rfl⟩
    show st.listAreas.map normalizeStrV2 = st.listAreas.map normalizeStr
    rfl

/-- Claim C10, confirmed.  Activating the save control never modifies the
dirty flag: `dirty` after the handler equals `dirty` before it, so if the
flag was set when save was clicked, the `beforeunload` warning is still armed
during the save-triggered navigation. -/
theorem C10_theorem (st : FormState) :
    (saveClick st).1.dirty = st.dirty ∧
      (st.dirty = true → beforeunload (saveClick st).1 = true) :=
  ⟨rfl, fun h => h⟩

/-- Witness for C10: evaluated on the concrete dirty state
`editingForm`. -/
theorem C10_witness :
    editingForm.dirty = true ∧ beforeunload (saveClick editingForm).1 = true :=
  ⟨rfl, (C10_theorem editingForm).2 rfl⟩

end EmployeeDetail
